import Mathlib

/-!
# Verification of the olive node-graph core

A shallow embedding of the dependency-graph / cache-invalidation core of the
olive video editor (`app/node/node.cpp`) together with the XML deserialization
linker context (`app/common/xmlutils.h`), and proofs of the specified
properties of `GetDependencies`, `InvalidateCache`, `AddParameter`,
`HasParamWithID`, `XMLConnectNodes` and the `node_ptrs` token map.

Modelling conventions:
* Nodes are identified by their index into `Graph.nodes`; each node owns an
  ordered list of parameters (`QObject` children in the source, in insertion
  order), each parameter an ordered list of edges.
* An edge is modelled by the owning nodes of its two endpoint parameters,
  which is all the traversal code reads (`edge->output()->parent()` and
  `edge->input()->parent()`).
* The two recursive traversals have no termination guard in the source; they
  are embedded fuel-bounded, `none` meaning "did not terminate within `fuel`
  nested calls".  `rational` time values are embedded as `ℚ`.
* `InvalidateCache` is embedded with explicit state passing (the `Graph`
  threaded through every call) so that its frame property — it mutates
  nothing — is a statement and not a modelling artefact.
-/

/-- `NodeParam::Type` (param.h): a parameter is an input or an output. -/
inductive ParamType where
  | kInput : ParamType
  | kOutput : ParamType
deriving DecidableEq, Repr

/-- A `NodeEdge` connects an output parameter to an input parameter.  The
traversal code of node.cpp reads only the owning node of each endpoint
parameter, which is what is modelled: `outputParent` is
`edge->output()->parent()`, `inputParent` is `edge->input()->parent()`. -/
structure NodeEdge where
  outputParent : Nat
  inputParent : Nat
deriving DecidableEq, Repr

/-- A `NodeParam`: a string id (unique within its node), a direction, and the
ordered sequence of edges attached to it.  An edge is stored on both of its
endpoint parameters, as in the source. -/
structure NodeParam where
  id : String
  type : ParamType
  edges : List NodeEdge
deriving DecidableEq, Repr

/-- The node graph: node `n`'s ordered parameter list is `nodes[n]`.
An index outside the list denotes no node and has no parameters. -/
structure Graph where
  nodes : List (List NodeParam)
deriving DecidableEq, Repr

/-- `Node::parameters()` (node.cpp:78-81): the ordered children of node `n`. -/
def parameters (g : Graph) (n : Nat) : List NodeParam :=
  (g.nodes[n]?).getD []

/-- The inner double loop of `Node::InvalidateCache` (node.cpp:61-69)
flattened: for each parameter of type `kOutput`, for each of its edges (in
order), the edge's destination node `edge->input()->parent()`. -/
def collectOut : List NodeParam → List Nat
  | [] => []
  | p :: ps =>
    (if p.type = ParamType.kOutput then p.edges.map (fun e => e.inputParent) else [])
      ++ collectOut ps

/-- The nodes downstream of `n` through one output edge, in traversal order. -/
def outEdgeTargets (g : Graph) (n : Nat) : List Nat :=
  collectOut (parameters g n)

/-- The inner double loop of `GetDependenciesInternal` (node.cpp:99-109)
flattened: for each parameter of type `kInput`, for each of its edges (in
order), the edge's source node `edge->output()->parent()`. -/
def collectIn : List NodeParam → List Nat
  | [] => []
  | p :: ps =>
    (if p.type = ParamType.kInput then p.edges.map (fun e => e.outputParent) else [])
      ++ collectIn ps

/-- The nodes upstream of `n` through one input edge, in traversal order. -/
def inEdgeSources (g : Graph) (n : Nat) : List Nat :=
  collectIn (parameters g n)

/-- `Node::HasParamWithID` (node.cpp:127-140): linear scan of the node's
parameters for one whose id equals `i`. -/
def HasParamWithID : List NodeParam → String → Bool
  | [], _ => false
  | p :: ps, i => if p.id = i then true else HasParamWithID ps i

/-- `Node::AddParameter` (node.cpp:45-54).  The `Q_ASSERT(!HasParamWithID(param->id()))`
is the failure case (`none`); otherwise `param->setParent(this)` appends the
parameter to the node's children. -/
def AddParameter (node : List NodeParam) (param : NodeParam) : Option (List NodeParam) :=
  if HasParamWithID node param.id then none
  else some (node ++ [param])

/-- The loop of `GetDependenciesInternal` over the flattened list of directly
connected upstream nodes: each connected node is appended, then recursed into
(`h` is the recursive call at the remaining recursion budget). -/
def seqDeps (h : Nat → Option (List Nat)) : List Nat → Option (List Nat)
  | [] => some []
  | m :: ms =>
    match h m, seqDeps h ms with
    | some sub, some rest => some (m :: (sub ++ rest))
    | _, _ => none

/-- `GetDependenciesInternal` (node.cpp:96-111): recursively collects the
nodes `n` transitively depends on, appending each directly connected node
immediately before the nodes found by recursing into it.  Fuel-bounded:
`none` means the recursion did not bottom out within `fuel` nested calls
(the source has no cycle guard and would not terminate on a cyclic graph). -/
def GetDependenciesInternal (g : Graph) : Nat → Nat → Option (List Nat)
  | 0, _ => none
  | fuel + 1, n => seqDeps (fun m => GetDependenciesInternal g fuel m) (inEdgeSources g n)

/-- `Node::GetDependencies` (node.cpp:113-120): runs the internal collector on
an initially empty list. -/
def GetDependencies (g : Graph) (fuel n : Nat) : Option (List Nat) :=
  GetDependenciesInternal g fuel n

/-- The loop of `Node::InvalidateCache` over the flattened list of downstream
nodes, with the graph state threaded through every call; each downstream node
contributes its own invalidation call `(m, s, e)` followed by the calls that
call makes in turn. -/
def seqInvalidate (h : Graph → Nat → ℚ → ℚ → Option (Graph × List (Nat × ℚ × ℚ))) :
    Graph → List Nat → ℚ → ℚ → Option (Graph × List (Nat × ℚ × ℚ))
  | g, [], _, _ => some (g, [])
  | g, m :: ms, s, e =>
    match h g m s e with
    | some (g₁, tr₁) =>
      match seqInvalidate h g₁ ms s e with
      | some (g₂, tr₂) => some (g₂, (m, s, e) :: (tr₁ ++ tr₂))
      | none => none
    | none => none

/-- `Node::InvalidateCache` (node.cpp:56-71): for every output parameter of
`n`, for every edge attached to it, invalidate `edge->input()->parent()`
recursively with the same `start_range`/`end_range`.  The result is the
final graph state together with the trace of recursive invalidation calls
`(node, start_range, end_range)` in call order; fuel-bounded as above. -/
def InvalidateCache : Graph → Nat → Nat → ℚ → ℚ → Option (Graph × List (Nat × ℚ × ℚ))
  | _, 0, _, _, _ => none
  | g, fuel + 1, n, s, e =>
    seqInvalidate (fun g' m s' e' => InvalidateCache g' fuel m s' e') g (outEdgeTargets g n) s e

/-! ## The XML deserialization linker (xmlutils.h)

`XMLNodeData` and `SerializedConnection` are declared in xmlutils.h:40-57;
`XMLConnectNodes` is declared there (xmlutils.h:59) but its body is not part
of the visible sources, so it is modelled from the spec (§4.3). -/

/-- `XMLNodeData::SerializedConnection` (xmlutils.h:41-45): a pending
connection descriptor — destination input parameter (opaque handle), source
node serialization token, source output parameter name. -/
structure SerializedConnection where
  input : Nat
  output_node : Nat
  output : String
deriving DecidableEq, Repr

/-- Modelled from the spec: `QHash<quintptr, Node*>::insert` — registering a
node under a token replaces the value of an existing binding of that token
(the Qt hash holds one value per key, last insert wins).  The hash is
modelled as an association list. -/
def hashInsert : List (Nat × Nat) → Nat → Nat → List (Nat × Nat)
  | [], k, v => [(k, v)]
  | (k', v') :: t, k, v => if k' = k then (k, v) :: t else (k', v') :: hashInsert t k v

/-- Modelled from the spec: `QHash<quintptr, Node*>::value` — lookup of the
node registered under a token, `none` when the token is absent. -/
def hashLookup : List (Nat × Nat) → Nat → Option Nat
  | [], _ => none
  | (k', v') :: t, k => if k' = k then some v' else hashLookup t k

/-- Modelled from the spec: the registration of reconstructed nodes into
`node_ptrs` (the registration loop is not part of the visible sources) — each
node is inserted keyed by its serialization token, in reconstruction order. -/
def buildPtrs (regs : List (Nat × Nat)) : List (Nat × Nat) :=
  regs.foldl (fun h p => hashInsert h p.1 p.2) []

/-- `XMLNodeData` (xmlutils.h:40-57): the transient deserialization context.
`node_ptrs` maps serialization tokens to live nodes; `desired_connections`
holds the pending connection descriptors; `block_links` and `item_ptrs` are
carried for fidelity but unused by the linker step modelled here. -/
structure XMLNodeData where
  node_ptrs : List (Nat × Nat)
  desired_connections : List SerializedConnection
  block_links : List (Nat × Nat)
  item_ptrs : List (Nat × Nat)
deriving DecidableEq, Repr

/-- Modelled from the spec: the body of `XMLConnectNodes` (declared
xmlutils.h:59) is not part of the visible sources.  Per spec §4.3: for each
pending connection descriptor, look up the source node by token in
`node_ptrs`; if found, create an edge (source node, source output name,
destination input parameter); if the token is not found, silently skip that
descriptor and continue with the rest. -/
def XMLConnectNodes (d : XMLNodeData) : List (Nat × String × Nat) :=
  d.desired_connections.filterMap (fun c =>
    (hashLookup d.node_ptrs c.output_node).map (fun src => (src, c.output, c.input)))

/-- The number of edges of a graph, counted once each on the input side. -/
def numEdges (g : Graph) : Nat :=
  ((List.range g.nodes.length).map (fun n => (inEdgeSources g n).length)).sum

/-! ## Concrete test graphs -/

/-- Chain A → B → C (A = node 0 feeds B = node 1, B feeds C = node 2). -/
def chainGraph : Graph :=
  ⟨[ [⟨"out", ParamType.kOutput, [⟨0, 1⟩]⟩],
     [⟨"in", ParamType.kInput, [⟨0, 1⟩]⟩, ⟨"out", ParamType.kOutput, [⟨1, 2⟩]⟩],
     [⟨"in", ParamType.kInput, [⟨1, 2⟩]⟩] ]⟩

/-- Diamond A → B, A → C, B → D, C → D (A = 0, B = 1, C = 2, D = 3). -/
def diamondGraph : Graph :=
  ⟨[ [⟨"out", ParamType.kOutput, [⟨0, 1⟩, ⟨0, 2⟩]⟩],
     [⟨"in", ParamType.kInput, [⟨0, 1⟩]⟩, ⟨"out", ParamType.kOutput, [⟨1, 3⟩]⟩],
     [⟨"in", ParamType.kInput, [⟨0, 2⟩]⟩, ⟨"out", ParamType.kOutput, [⟨2, 3⟩]⟩],
     [⟨"in", ParamType.kInput, [⟨1, 3⟩, ⟨2, 3⟩]⟩] ]⟩

example : GetDependencies chainGraph 4 2 = some [1, 0] := by decide
example : GetDependencies diamondGraph 5 3 = some [1, 0, 2, 0] := by decide
example : InvalidateCache chainGraph 4 0 0 1 = some (chainGraph, [(1, 0, 1), (2, 0, 1)]) := by
  decide

/-! ## Generic traversal and forward/backward paths

Both node.cpp traversals share one skeleton: from node `n`, visit each node
of `step n` in order, emitting it and recursing into it.  `walk` is that
skeleton over an arbitrary step function; `GetDependenciesInternal` is `walk`
over `inEdgeSources`, and the trace of `InvalidateCache` is `walk` over
`outEdgeTargets` (proved below).  A path through the step relation is a list
of `(edge index, target node)` pairs, so two parallel edges give two distinct
paths. -/

/-- The common traversal skeleton: `none` = fuel exhausted, otherwise the
ordered list of visited nodes (each one once per arrival). -/
def walk (f : Nat → List Nat) : Nat → Nat → Option (List Nat)
  | 0, _ => none
  | fuel + 1, n => seqDeps (fun m => walk f fuel m) (f n)

/-- `validPath f n ps` holds when `ps` is a chain of steps out of `n`:
each element `(i, t)` takes the `i`-th entry of the current node's step list,
which must be `t`. -/
def validPath (f : Nat → List Nat) : Nat → List (Nat × Nat) → Bool
  | _, [] => true
  | n, p :: ps => if (f n)[p.1]? = some p.2 then validPath f p.2 ps else false

/-- The last target of a path, if any. -/
def lastTarget : List (Nat × Nat) → Option Nat
  | [] => none
  | [p] => some p.2
  | _ :: q :: ps => lastTarget (q :: ps)

/-- Whether a (nonempty) path ends at node `m`. -/
def endsAt (ps : List (Nat × Nat)) (m : Nat) : Bool :=
  lastTarget ps == some m

/-- The node a path starting at `n` ends at (`n` itself for the empty path). -/
def pathEnd (n : Nat) (ps : List (Nat × Nat)) : Nat :=
  (lastTarget ps).getD n

/-- `(index, value)` pairs of a list, indices starting at `k`. -/
def zipIdxFrom : Nat → List Nat → List (Nat × Nat)
  | _, [] => []
  | k, a :: as => (k, a) :: zipIdxFrom (k + 1) as

/-- All paths that begin with one of the steps in `ts` and continue with a
path produced by `h` from the step's target. -/
def seqPaths (h : Nat → List (List (Nat × Nat))) : List (Nat × Nat) → List (List (Nat × Nat))
  | [] => []
  | p :: ts => ([p] :: (h p.2).map (fun ps => p :: ps)) ++ seqPaths h ts

/-- All nonempty paths out of `n` of length at most `fuel`, each exactly once. -/
def pathsUpTo (f : Nat → List Nat) : Nat → Nat → List (List (Nat × Nat))
  | 0, _ => []
  | fuel + 1, n => seqPaths (fun t => pathsUpTo f fuel t) (zipIdxFrom 0 (f n))

/-- Length of the longest step chain out of `n`, explored to depth `fuel`
(an upper bound for the length of every path of length ≤ `fuel`). -/
def longestFrom (f : Nat → List Nat) : Nat → Nat → Nat
  | 0, _ => 0
  | fuel + 1, n => (f n).foldr (fun t acc => Nat.max (1 + longestFrom f fuel t) acc) 0

/-- The longest path length among paths of length ≤ `fuel` out of nodes < `N`. -/
def maxPathLen (f : Nat → List Nat) (fuel N : Nat) : Nat :=
  ((List.range N).map (longestFrom f fuel)).foldr Nat.max 0

/-- Every step of `f` strictly decreases `rank` (a topological ranking). -/
def RankDescending (f : Nat → List Nat) (rank : Nat → Nat) : Prop :=
  ∀ n m, m ∈ f n → rank m < rank n

/-- Every step of `f` lands below `N`. -/
def BoundedSteps (f : Nat → List Nat) (N : Nat) : Prop :=
  ∀ n m, m ∈ f n → m < N

/-- The step relation has no cycle: no nonempty path returns to its start. -/
def Acyclic (f : Nat → List Nat) : Prop :=
  ∀ n ps, ps ≠ [] → validPath f n ps = true → pathEnd n ps ≠ n

/-- Every edge endpoint of every (existing) node is an existing node. -/
def WellFormed (g : Graph) : Prop :=
  ∀ n, n < g.nodes.length →
    (∀ m ∈ inEdgeSources g n, m < g.nodes.length) ∧
    (∀ m ∈ outEdgeTargets g n, m < g.nodes.length)

instance (g : Graph) : Decidable (WellFormed g) := by
  unfold WellFormed; infer_instance

/-- A chain of 7 diamonds: node 0 is the source; diamond `i` (1-based) has
branch nodes `3i-2`, `3i-1` and sink `3i`; each diamond's sink feeds the next
diamond.  22 nodes, 28 edges, longest path 14 edges (15 nodes), and the
number of backward paths from the final sink 21 is 508. -/
def ladder7 : Graph :=
  ⟨[ [⟨"out", ParamType.kOutput, [⟨0, 1⟩, ⟨0, 2⟩]⟩],
     [⟨"in", ParamType.kInput, [⟨0, 1⟩]⟩, ⟨"out", ParamType.kOutput, [⟨1, 3⟩]⟩],
     [⟨"in", ParamType.kInput, [⟨0, 2⟩]⟩, ⟨"out", ParamType.kOutput, [⟨2, 3⟩]⟩],
     [⟨"in", ParamType.kInput, [⟨1, 3⟩, ⟨2, 3⟩]⟩,
      ⟨"out", ParamType.kOutput, [⟨3, 4⟩, ⟨3, 5⟩]⟩],
     [⟨"in", ParamType.kInput, [⟨3, 4⟩]⟩, ⟨"out", ParamType.kOutput, [⟨4, 6⟩]⟩],
     [⟨"in", ParamType.kInput, [⟨3, 5⟩]⟩, ⟨"out", ParamType.kOutput, [⟨5, 6⟩]⟩],
     [⟨"in", ParamType.kInput, [⟨4, 6⟩, ⟨5, 6⟩]⟩,
      ⟨"out", ParamType.kOutput, [⟨6, 7⟩, ⟨6, 8⟩]⟩],
     [⟨"in", ParamType.kInput, [⟨6, 7⟩]⟩, ⟨"out", ParamType.kOutput, [⟨7, 9⟩]⟩],
     [⟨"in", ParamType.kInput, [⟨6, 8⟩]⟩, ⟨"out", ParamType.kOutput, [⟨8, 9⟩]⟩],
     [⟨"in", ParamType.kInput, [⟨7, 9⟩, ⟨8, 9⟩]⟩,
      ⟨"out", ParamType.kOutput, [⟨9, 10⟩, ⟨9, 11⟩]⟩],
     [⟨"in", ParamType.kInput, [⟨9, 10⟩]⟩, ⟨"out", ParamType.kOutput, [⟨10, 12⟩]⟩],
     [⟨"in", ParamType.kInput, [⟨9, 11⟩]⟩, ⟨"out", ParamType.kOutput, [⟨11, 12⟩]⟩],
     [⟨"in", ParamType.kInput, [⟨10, 12⟩, ⟨11, 12⟩]⟩,
      ⟨"out", ParamType.kOutput, [⟨12, 13⟩, ⟨12, 14⟩]⟩],
     [⟨"in", ParamType.kInput, [⟨12, 13⟩]⟩, ⟨"out", ParamType.kOutput, [⟨13, 15⟩]⟩],
     [⟨"in", ParamType.kInput, [⟨12, 14⟩]⟩, ⟨"out", ParamType.kOutput, [⟨14, 15⟩]⟩],
     [⟨"in", ParamType.kInput, [⟨13, 15⟩, ⟨14, 15⟩]⟩,
      ⟨"out", ParamType.kOutput, [⟨15, 16⟩, ⟨15, 17⟩]⟩],
     [⟨"in", ParamType.kInput, [⟨15, 16⟩]⟩, ⟨"out", ParamType.kOutput, [⟨16, 18⟩]⟩],
     [⟨"in", ParamType.kInput, [⟨15, 17⟩]⟩, ⟨"out", ParamType.kOutput, [⟨17, 18⟩]⟩],
     [⟨"in", ParamType.kInput, [⟨16, 18⟩, ⟨17, 18⟩]⟩,
      ⟨"out", ParamType.kOutput, [⟨18, 19⟩, ⟨18, 20⟩]⟩],
     [⟨"in", ParamType.kInput, [⟨18, 19⟩]⟩, ⟨"out", ParamType.kOutput, [⟨19, 21⟩]⟩],
     [⟨"in", ParamType.kInput, [⟨18, 20⟩]⟩, ⟨"out", ParamType.kOutput, [⟨20, 21⟩]⟩],
     [⟨"in", ParamType.kInput, [⟨19, 21⟩, ⟨20, 21⟩]⟩] ]⟩

/-- The distance of each ladder7 node from the source along the chain (a
topological ranking of the backward step relation `inEdgeSources ladder7`). -/
def ladderLevel (n : Nat) : Nat :=
  [0, 1, 1, 2, 3, 3, 4, 5, 5, 6, 7, 7, 8,
   9, 9, 10, 11, 11, 12, 13, 13, 14].getD n 0

example : WellFormed diamondGraph := by decide
example : pathsUpTo (outEdgeTargets diamondGraph) 5 0 =
    [[(0, 1)], [(0, 1), (0, 3)], [(1, 2)], [(1, 2), (0, 3)]] := by decide

/-! ## Basic lemmas on the traversal skeleton -/

theorem getElem?_mem_of_some {l : List Nat} (i : Nat) {t : Nat} (h : l[i]? = some t) :
    t ∈ l := by
  induction l generalizing i with
  | nil => simp at h
  | cons a as ih =>
    cases i with
    | zero => simp at h; simp [h]
    | succ j =>
      simp only [List.getElem?_cons_succ] at h
      exact List.mem_cons_of_mem a (ih j h)

theorem some_getElem?_of_mem {l : List Nat} {t : Nat} (h : t ∈ l) :
    ∃ i : Nat, l[i]? = some t := by
  induction l with
  | nil => simp at h
  | cons a as ih =>
    rcases List.mem_cons.mp h with rfl | h'
    · exact ⟨0, by simp⟩
    · obtain ⟨i, hi⟩ := ih h'
      exact ⟨i + 1, by simpa using hi⟩

theorem seqDeps_congr {h₁ h₂ : Nat → Option (List Nat)} :
    ∀ {ms : List Nat}, (∀ m ∈ ms, h₁ m = h₂ m) → seqDeps h₁ ms = seqDeps h₂ ms := by
  intro ms
  induction ms with
  | nil => intro _; rfl
  | cons m ms ih =>
    intro hall
    have hm : h₁ m = h₂ m := hall m (List.mem_cons_self m ms)
    have hms : seqDeps h₁ ms = seqDeps h₂ ms :=
      ih (fun x hx => hall x (List.mem_cons_of_mem m hx))
    simp only [seqDeps, hm, hms]

theorem seqDeps_cons_eq_some {h : Nat → Option (List Nat)} {m : Nat} {ms : List Nat}
    {l : List Nat} :
    seqDeps h (m :: ms) = some l ↔
      ∃ sub rest, h m = some sub ∧ seqDeps h ms = some rest ∧ l = m :: (sub ++ rest) := by
  cases hm : h m with
  | none => simp [seqDeps, hm]
  | some sub =>
    cases hms : seqDeps h ms with
    | none => simp [seqDeps, hm, hms]
    | some rest =>
      simp only [seqDeps, hm, hms, Option.some.injEq]
      constructor
      · rintro rfl; exact ⟨sub, rest, rfl, rfl, rfl⟩
      · rintro ⟨sub', rest', hs, hr, rfl⟩
        cases hs; cases hr; rfl

theorem seqDeps_isSome {h : Nat → Option (List Nat)} :
    ∀ {ms : List Nat}, (∀ m ∈ ms, (h m).isSome) → (seqDeps h ms).isSome := by
  intro ms
  induction ms with
  | nil => intro _; simp [seqDeps]
  | cons m ms ih =>
    intro hall
    obtain ⟨sub, hsub⟩ := Option.isSome_iff_exists.mp (hall m (List.mem_cons_self m ms))
    obtain ⟨rest, hrest⟩ := Option.isSome_iff_exists.mp
      (ih (fun x hx => hall x (List.mem_cons_of_mem m hx)))
    simp [seqDeps, hsub, hrest]

theorem walk_zero (f : Nat → List Nat) (n : Nat) : walk f 0 n = none := rfl

theorem walk_succ (f : Nat → List Nat) (fuel n : Nat) :
    walk f (fuel + 1) n = seqDeps (fun m => walk f fuel m) (f n) := by
  simp [walk]

/-- `GetDependenciesInternal` is the traversal skeleton over the backward
step relation `inEdgeSources`. -/
theorem getDependenciesInternal_eq_walk (g : Graph) :
    ∀ fuel n, GetDependenciesInternal g fuel n = walk (inEdgeSources g) fuel n := by
  intro fuel
  induction fuel with
  | zero => intro n; rfl
  | succ fuel ih =>
    intro n
    simp only [GetDependenciesInternal, walk_succ]
    exact seqDeps_congr (fun m _ => ih m)

/-- `InvalidateCache` never touches the graph state, and its trace is the
traversal skeleton over the forward step relation `outEdgeTargets`, every
visited node tagged with the unchanged time range. -/
theorem invalidateCache_eq_walk :
    ∀ (fuel : Nat) (g : Graph) (n : Nat) (s e : ℚ),
      InvalidateCache g fuel n s e =
        (walk (outEdgeTargets g) fuel n).map
          (fun l => (g, l.map (fun m => (m, s, e)))) := by
  intro fuel
  induction fuel with
  | zero => intro g n s e; rfl
  | succ fuel ih =>
    intro g n s e
    have inner : ∀ ms : List Nat,
        seqInvalidate (fun g' m s' e' => InvalidateCache g' fuel m s' e') g ms s e =
          (seqDeps (fun m => walk (outEdgeTargets g) fuel m) ms).map
            (fun l => (g, l.map (fun m => (m, s, e)))) := by
      intro ms
      induction ms with
      | nil => rfl
      | cons m ms ihms =>
        simp only [seqInvalidate]
        rw [ih g m s e]
        cases hw : walk (outEdgeTargets g) fuel m with
        | none => simp [seqDeps, hw]
        | some l₁ =>
          simp only [Option.map_some']
          rw [ihms]
          cases hrest : seqDeps (fun m => walk (outEdgeTargets g) fuel m) ms with
          | none => simp [seqDeps, hw, hrest]
          | some l₂ => simp [seqDeps, hw, hrest]
    simp only [InvalidateCache, walk_succ]
    exact inner (outEdgeTargets g n)

/-! ## Lemmas about paths -/

theorem lastTarget_cons_of_ne_nil {p : Nat × Nat} {ps : List (Nat × Nat)} (h : ps ≠ []) :
    lastTarget (p :: ps) = lastTarget ps := by
  cases ps with
  | nil => exact absurd rfl h
  | cons q qs => rfl

theorem lastTarget_isSome {ps : List (Nat × Nat)} (h : ps ≠ []) :
    ∃ t, lastTarget ps = some t := by
  induction ps with
  | nil => exact absurd rfl h
  | cons p qs ih =>
    cases qs with
    | nil => exact ⟨p.2, rfl⟩
    | cons q qs' =>
      obtain ⟨t, ht⟩ := ih (by simp)
      exact ⟨t, by rw [lastTarget_cons_of_ne_nil (by simp)]; exact ht⟩

theorem pathEnd_nil (n : Nat) : pathEnd n [] = n := rfl

theorem pathEnd_cons (n : Nat) (p : Nat × Nat) (ps : List (Nat × Nat)) :
    pathEnd n (p :: ps) = pathEnd p.2 ps := by
  cases ps with
  | nil => rfl
  | cons q qs =>
    obtain ⟨t, ht⟩ := lastTarget_isSome (List.cons_ne_nil q qs)
    simp [pathEnd, lastTarget_cons_of_ne_nil (List.cons_ne_nil q qs), ht]

theorem pathEnd_eq_of_lastTarget {ps : List (Nat × Nat)} {t : Nat} (h : lastTarget ps = some t)
    (n : Nat) : pathEnd n ps = t := by
  simp [pathEnd, h]

theorem endsAt_iff {ps : List (Nat × Nat)} {m : Nat} :
    endsAt ps m = true ↔ lastTarget ps = some m := by
  simp [endsAt]

theorem endsAt_cons_of_ne_nil {p : Nat × Nat} {ps : List (Nat × Nat)} (h : ps ≠ [])
    (m : Nat) : endsAt (p :: ps) m = endsAt ps m := by
  simp [endsAt, lastTarget_cons_of_ne_nil h]

theorem endsAt_singleton (p : Nat × Nat) (m : Nat) : endsAt [p] m = (p.2 == m) := by
  simp [endsAt, lastTarget]

theorem endsAt_of_pathEnd {ps : List (Nat × Nat)} (h : ps ≠ []) (n : Nat) :
    endsAt ps (pathEnd n ps) = true := by
  obtain ⟨t, ht⟩ := lastTarget_isSome h
  simp [endsAt_iff, ht, pathEnd_eq_of_lastTarget ht n]

theorem validPath_nil (f : Nat → List Nat) (n : Nat) : validPath f n [] = true := rfl

theorem validPath_cons {f : Nat → List Nat} {n : Nat} {p : Nat × Nat} {ps : List (Nat × Nat)} :
    validPath f n (p :: ps) = true ↔ (f n)[p.1]? = some p.2 ∧ validPath f p.2 ps = true := by
  by_cases h : (f n)[p.1]? = some p.2 <;> simp [validPath, h]

theorem validPath_append (f : Nat → List Nat) :
    ∀ (l₁ l₂ : List (Nat × Nat)) (n : Nat),
      validPath f n (l₁ ++ l₂) = (validPath f n l₁ && validPath f (pathEnd n l₁) l₂) := by
  intro l₁
  induction l₁ with
  | nil => intro l₂ n; simp [pathEnd_nil, validPath_nil]
  | cons p l₁ ih =>
    intro l₂ n
    rw [List.cons_append, pathEnd_cons]
    by_cases h : (f n)[p.1]? = some p.2
    · simp only [validPath, if_pos h]
      exact ih l₂ p.2
    · simp [validPath, if_neg h]

theorem pathEnd_concat (n : Nat) (l : List (Nat × Nat)) (p : Nat × Nat) :
    pathEnd n (l ++ [p]) = p.2 := by
  induction l generalizing n with
  | nil => rfl
  | cons q l ih => rw [List.cons_append, pathEnd_cons]; exact ih q.2

/-! ## Lemmas about `zipIdxFrom`, `seqPaths`, `pathsUpTo` -/

theorem zipIdxFrom_mem :
    ∀ (l : List Nat) (k : Nat) (p : Nat × Nat),
      p ∈ zipIdxFrom k l ↔ ∃ j : Nat, p.1 = k + j ∧ l[j]? = some p.2 := by
  intro l
  induction l with
  | nil => intro k p; simp [zipIdxFrom]
  | cons a as ih =>
    intro k p
    simp only [zipIdxFrom, List.mem_cons, ih (k + 1) p]
    constructor
    · rintro (rfl | ⟨j, hj, hget⟩)
      · exact ⟨0, by simp⟩
      · exact ⟨j + 1, by omega, by simpa using hget⟩
    · rintro ⟨j, hj, hget⟩
      cases j with
      | zero =>
        left
        simp only [List.getElem?_cons_zero, Option.some.injEq] at hget
        obtain ⟨p₁, p₂⟩ := p
        simp only at hj hget
        simp [hj, hget]
      | succ j' =>
        right
        exact ⟨j', by omega, by simpa using hget⟩

theorem mem_zipIdxFrom_zero {l : List Nat} {p : Nat × Nat} :
    p ∈ zipIdxFrom 0 l ↔ l[p.1]? = some p.2 := by
  rw [zipIdxFrom_mem]
  constructor
  · rintro ⟨j, hj, hget⟩; simpa [hj] using hget
  · intro h; exact ⟨p.1, by omega, h⟩

theorem zipIdxFrom_fst_le {l : List Nat} {k : Nat} {p : Nat × Nat} (h : p ∈ zipIdxFrom k l) :
    k ≤ p.1 := by
  obtain ⟨j, hj, _⟩ := (zipIdxFrom_mem l k p).mp h
  omega

theorem zipIdxFrom_nodup : ∀ (l : List Nat) (k : Nat), (zipIdxFrom k l).Nodup := by
  intro l
  induction l with
  | nil => intro k; simp [zipIdxFrom]
  | cons a as ih =>
    intro k
    refine List.nodup_cons.mpr ⟨fun hmem => ?_, ih (k + 1)⟩
    have := zipIdxFrom_fst_le hmem
    omega

theorem seqPaths_mem {h : Nat → List (List (Nat × Nat))} :
    ∀ {ts : List (Nat × Nat)} {ps : List (Nat × Nat)},
      ps ∈ seqPaths h ts ↔
        ∃ p tl, ps = p :: tl ∧ p ∈ ts ∧ (tl = [] ∨ tl ∈ h p.2) := by
  intro ts
  induction ts with
  | nil => intro ps; simp [seqPaths]
  | cons q ts ih =>
    intro ps
    simp only [seqPaths, List.mem_append, List.mem_cons, List.mem_map, ih]
    constructor
    · rintro ((rfl | ⟨tl, htl, rfl⟩) | ⟨p, tl, rfl, hp, hh⟩)
      · exact ⟨q, [], rfl, Or.inl rfl, Or.inl rfl⟩
      · exact ⟨q, tl, rfl, Or.inl rfl, Or.inr htl⟩
      · exact ⟨p, tl, rfl, Or.inr hp, hh⟩
    · rintro ⟨p, tl, rfl, (rfl | hp), (rfl | hh)⟩
      · exact Or.inl (Or.inl rfl)
      · exact Or.inl (Or.inr ⟨tl, hh, rfl⟩)
      · exact Or.inr ⟨p, [], rfl, hp, Or.inl rfl⟩
      · exact Or.inr ⟨p, tl, rfl, hp, Or.inr hh⟩

theorem pathsUpTo_ne_nil {f : Nat → List Nat} {fuel n : Nat} {ps : List (Nat × Nat)}
    (h : ps ∈ pathsUpTo f fuel n) : ps ≠ [] := by
  cases fuel with
  | zero => simp [pathsUpTo] at h
  | succ fuel =>
    obtain ⟨p, tl, rfl, _, _⟩ := seqPaths_mem.mp h
    simp

theorem mem_pathsUpTo {f : Nat → List Nat} :
    ∀ (fuel n : Nat) (ps : List (Nat × Nat)),
      ps ∈ pathsUpTo f fuel n ↔ ps ≠ [] ∧ ps.length ≤ fuel ∧ validPath f n ps = true := by
  intro fuel
  induction fuel with
  | zero =>
    intro n ps
    simp only [pathsUpTo, List.not_mem_nil, false_iff]
    rintro ⟨hne, hlen, _⟩
    exact hne (List.eq_nil_of_length_eq_zero (Nat.le_zero.mp hlen))
  | succ fuel ih =>
    intro n ps
    simp only [pathsUpTo]
    rw [seqPaths_mem]
    constructor
    · rintro ⟨p, tl, rfl, hp, htl⟩
      have hget := mem_zipIdxFrom_zero.mp hp
      refine ⟨by simp, ?_, ?_⟩
      · rcases htl with rfl | htl
        · simp
        · have := ((ih p.2 tl).mp htl).2.1
          simp only [List.length_cons]
          omega
      · rcases htl with rfl | htl
        · exact validPath_cons.mpr ⟨hget, validPath_nil f p.2⟩
        · exact validPath_cons.mpr ⟨hget, ((ih p.2 tl).mp htl).2.2⟩
    · rintro ⟨hne, hlen, hvalid⟩
      cases ps with
      | nil => exact absurd rfl hne
      | cons p tl =>
        obtain ⟨hget, hvtl⟩ := validPath_cons.mp hvalid
        refine ⟨p, tl, rfl, mem_zipIdxFrom_zero.mpr hget, ?_⟩
        cases tl with
        | nil => exact Or.inl rfl
        | cons q tl' =>
          right
          refine (ih p.2 _).mpr ⟨by simp, ?_, hvtl⟩
          simp only [List.length_cons] at hlen ⊢
          omega

theorem seqPaths_nodup {h : Nat → List (List (Nat × Nat))}
    (hnd : ∀ t, (h t).Nodup) (hne : ∀ t ps, ps ∈ h t → ps ≠ []) :
    ∀ {ts : List (Nat × Nat)}, ts.Nodup → (seqPaths h ts).Nodup := by
  intro ts
  induction ts with
  | nil => intro _; simp [seqPaths]
  | cons p ts ih =>
    intro hts
    obtain ⟨hp_not, hts'⟩ := List.nodup_cons.mp hts
    rw [seqPaths]
    refine List.nodup_append.mpr ⟨?_, ih hts', ?_⟩
    · refine List.nodup_cons.mpr ⟨?_, ?_⟩
      · intro hmem
        obtain ⟨x, hx, hpx⟩ := List.mem_map.mp hmem
        have hxnil : x = [] := by
          have := congrArg List.tail hpx
          simpa using this
        exact hne p.2 x hx hxnil
      · exact (hnd p.2).map (fun a b hab => by injection hab)
    · intro x hx hx'
      obtain ⟨q, tl, hxeq, hq, _⟩ := seqPaths_mem.mp hx'
      rcases List.mem_cons.mp hx with rfl | hmap
      · have hpq : p = q := by
          have := congrArg List.head? hxeq
          simpa using this
        exact hp_not (hpq ▸ hq)
      · obtain ⟨y, _, hpy⟩ := List.mem_map.mp hmap
        have hpq : p = q := by
          rw [← hpy] at hxeq
          have := congrArg List.head? hxeq
          simpa using this
        exact hp_not (hpq ▸ hq)

theorem pathsUpTo_nodup (f : Nat → List Nat) :
    ∀ fuel n, (pathsUpTo f fuel n).Nodup := by
  intro fuel
  induction fuel with
  | zero => intro n; simp [pathsUpTo]
  | succ fuel ih =>
    intro n
    simp only [pathsUpTo]
    exact seqPaths_nodup (fun t => ih t) (fun t ps h => pathsUpTo_ne_nil h)
      (zipIdxFrom_nodup _ 0)

/-- The central counting fact: when the traversal completes, each node `m` is
visited exactly once per path of the step relation that ends at `m`. -/
theorem walk_count {f : Nat → List Nat} :
    ∀ (fuel n : Nat) (l : List Nat), walk f fuel n = some l →
      ∀ m, l.count m = (pathsUpTo f fuel n).countP (fun ps => endsAt ps m) := by
  intro fuel
  induction fuel with
  | zero => intro n l h; simp [walk] at h
  | succ fuel ih =>
    intro n l hw m
    rw [walk_succ] at hw
    have inner : ∀ (ms : List Nat) (k : Nat) (l' : List Nat),
        seqDeps (fun x => walk f fuel x) ms = some l' →
        l'.count m = (seqPaths (fun t => pathsUpTo f fuel t) (zipIdxFrom k ms)).countP
          (fun ps => endsAt ps m) := by
      intro ms
      induction ms with
      | nil =>
        intro k l' h
        simp only [seqDeps, Option.some.injEq] at h
        subst h
        simp [zipIdxFrom, seqPaths]
      | cons t ms ihms =>
        intro k l' h
        obtain ⟨sub, rest, hsub, hrest, rfl⟩ := seqDeps_cons_eq_some.mp h
        have hmap : ((pathsUpTo f fuel t).map (fun ps => (k, t) :: ps)).countP
            (fun ps => endsAt ps m) = sub.count m := by
          rw [List.countP_map]
          rw [List.countP_congr (q := fun ps => endsAt ps m) ?_]
          · exact (ih t sub hsub m).symm
          · intro ps hps
            have hne := pathsUpTo_ne_nil hps
            simp only [Function.comp_apply]
            rw [endsAt_cons_of_ne_nil hne]
        simp only [zipIdxFrom, seqPaths, List.countP_append, List.countP_cons,
          List.count_cons, List.count_append, endsAt_singleton, hmap,
          ihms (k + 1) rest hrest]
        by_cases htm : t = m
        · simp only [htm, beq_self_eq_true, if_true]
          omega
        · simp [htm, beq_iff_eq]
    have hfin := inner (f n) 0 l hw
    simpa only [pathsUpTo] using hfin

/-- When the traversal completes, its output has exactly one entry per path. -/
theorem walk_length {f : Nat → List Nat} :
    ∀ (fuel n : Nat) (l : List Nat), walk f fuel n = some l →
      l.length = (pathsUpTo f fuel n).length := by
  intro fuel
  induction fuel with
  | zero => intro n l h; simp [walk] at h
  | succ fuel ih =>
    intro n l hw
    rw [walk_succ] at hw
    have inner : ∀ (ms : List Nat) (k : Nat) (l' : List Nat),
        seqDeps (fun x => walk f fuel x) ms = some l' →
        l'.length = (seqPaths (fun t => pathsUpTo f fuel t) (zipIdxFrom k ms)).length := by
      intro ms
      induction ms with
      | nil =>
        intro k l' h
        simp only [seqDeps, Option.some.injEq] at h
        subst h
        simp [zipIdxFrom, seqPaths]
      | cons t ms ihms =>
        intro k l' h
        obtain ⟨sub, rest, hsub, hrest, rfl⟩ := seqDeps_cons_eq_some.mp h
        simp only [zipIdxFrom, seqPaths, List.length_append, List.length_cons,
          List.length_map, List.length_append]
        rw [ih t sub hsub, ihms (k + 1) rest hrest]
        omega
    have hfin := inner (f n) 0 l hw
    simpa only [pathsUpTo] using hfin

/-- The traversal completes whenever every path is shorter than the fuel. -/
theorem walk_isSome {f : Nat → List Nat} :
    ∀ (fuel n : Nat), (∀ ps, validPath f n ps = true → ps.length < fuel) →
      (walk f fuel n).isSome := by
  intro fuel
  induction fuel with
  | zero =>
    intro n h
    have := h [] (validPath_nil f n)
    simp at this
  | succ fuel ih =>
    intro n h
    rw [walk_succ]
    apply seqDeps_isSome
    intro t ht
    obtain ⟨i, hi⟩ := some_getElem?_of_mem ht
    apply ih
    intro ps hps
    have hcons : validPath f n ((i, t) :: ps) = true := validPath_cons.mpr ⟨hi, hps⟩
    have := h _ hcons
    simp only [List.length_cons] at this
    omega

/-! ## Acyclicity, rankings and termination -/

theorem valid_snd_lt {f : Nat → List Nat} {N : Nat} (hb : BoundedSteps f N) :
    ∀ (ps : List (Nat × Nat)) (n : Nat), validPath f n ps = true → ∀ x ∈ ps, x.2 < N := by
  intro ps
  induction ps with
  | nil => intro n _ x hx; simp at hx
  | cons p tl ih =>
    intro n hv x hx
    obtain ⟨hget, hvtl⟩ := validPath_cons.mp hv
    rcases List.mem_cons.mp hx with rfl | hx'
    · exact hb n x.2 (getElem?_mem_of_some x.1 hget)
    · exact ih p.2 hvtl x hx'

theorem rank_pathEnd {f : Nat → List Nat} {rank : Nat → Nat} (hr : RankDescending f rank) :
    ∀ (ps : List (Nat × Nat)) (n : Nat), validPath f n ps = true → ps ≠ [] →
      rank (pathEnd n ps) < rank n := by
  intro ps
  induction ps with
  | nil => intro n _ hne; exact absurd rfl hne
  | cons p tl ih =>
    intro n hv _
    obtain ⟨hget, hvtl⟩ := validPath_cons.mp hv
    have hstep : rank p.2 < rank n := hr n p.2 (getElem?_mem_of_some p.1 hget)
    rw [pathEnd_cons]
    cases tl with
    | nil => exact hstep
    | cons q tl' => exact lt_trans (ih p.2 hvtl (by simp)) hstep

/-- A topological ranking witnesses acyclicity. -/
theorem acyclic_of_rank {f : Nat → List Nat} {rank : Nat → Nat}
    (hr : RankDescending f rank) : Acyclic f := by
  intro n ps hne hv heq
  have h := rank_pathEnd hr ps n hv hne
  rw [heq] at h
  exact lt_irrefl _ h

theorem rank_length_le {f : Nat → List Nat} {rank : Nat → Nat} (hr : RankDescending f rank) :
    ∀ (ps : List (Nat × Nat)) (n : Nat), validPath f n ps = true → ps.length ≤ rank n := by
  intro ps
  induction ps with
  | nil => intro n _; simp
  | cons p tl ih =>
    intro n hv
    obtain ⟨hget, hvtl⟩ := validPath_cons.mp hv
    have hstep : rank p.2 < rank n := hr n p.2 (getElem?_mem_of_some p.1 hget)
    have := ih p.2 hvtl
    simp only [List.length_cons]
    omega

theorem exists_snd_dup :
    ∀ (l : List (Nat × Nat)) (s : Finset Nat), (∀ x ∈ l, x.2 ∈ s) → s.card < l.length →
      ∃ l₁ p l₂ q l₃, l = l₁ ++ p :: (l₂ ++ q :: l₃) ∧ p.2 = q.2 := by
  intro l
  induction l with
  | nil => intro s _ hcard; simp at hcard
  | cons x xs ih =>
    intro s hall hcard
    by_cases hx : ∃ y ∈ xs, y.2 = x.2
    · obtain ⟨y, hy, hyx⟩ := hx
      obtain ⟨u, v, huv⟩ := List.append_of_mem hy
      exact ⟨[], x, u, y, v, by simp [huv], hyx.symm⟩
    · push_neg at hx
      have hxmem : x.2 ∈ s := hall x (List.mem_cons_self x xs)
      have hmem : ∀ z ∈ xs, z.2 ∈ s.erase x.2 := fun z hz =>
        Finset.mem_erase.mpr ⟨hx z hz, hall z (List.mem_cons_of_mem x hz)⟩
      have hcard' : (s.erase x.2).card < xs.length := by
        rw [Finset.card_erase_of_mem hxmem]
        have hpos : 0 < s.card := Finset.card_pos.mpr ⟨x.2, hxmem⟩
        simp only [List.length_cons] at hcard
        omega
      obtain ⟨l₁, p, l₂, q, l₃, heq, hpq⟩ := ih (s.erase x.2) hmem hcard'
      exact ⟨x :: l₁, p, l₂, q, l₃, by simp [heq], hpq⟩

/-- In a bounded acyclic step relation, no path is longer than the node count
(pigeonhole: a longer path revisits a node, i.e. contains a cycle). -/
theorem path_length_le_of_acyclic {f : Nat → List Nat} {N : Nat}
    (hb : BoundedSteps f N) (ha : Acyclic f) {n : Nat} {ps : List (Nat × Nat)}
    (hv : validPath f n ps = true) : ps.length ≤ N := by
  by_contra hlen
  push_neg at hlen
  have hall : ∀ x ∈ ps, x.2 ∈ Finset.range N := fun x hx =>
    Finset.mem_range.mpr (valid_snd_lt hb ps n hv x hx)
  obtain ⟨l₁, p, l₂, q, l₃, heq, hpq⟩ :=
    exists_snd_dup ps (Finset.range N) hall (by rw [Finset.card_range]; omega)
  have heq2 : ps = (l₁ ++ [p]) ++ ((l₂ ++ [q]) ++ l₃) := by simp [heq]
  rw [heq2, validPath_append, pathEnd_concat] at hv
  have hv2 := (Bool.and_eq_true _ _).mp hv |>.2
  rw [validPath_append] at hv2
  have hv21 := (Bool.and_eq_true _ _).mp hv2 |>.1
  have hend : pathEnd p.2 (l₂ ++ [q]) = q.2 := pathEnd_concat p.2 l₂ q
  exact ha p.2 (l₂ ++ [q]) (by simp) hv21 (by rw [hend, ← hpq])

/-- On a bounded acyclic step relation the traversal always completes with
fuel one more than the node count. -/
theorem acyclic_walk_isSome {f : Nat → List Nat} {N : Nat}
    (hb : BoundedSteps f N) (ha : Acyclic f) (n : Nat) :
    (walk f (N + 1) n).isSome :=
  walk_isSome (N + 1) n (fun _ hv =>
    Nat.lt_succ_of_le (path_length_le_of_acyclic hb ha hv))

theorem foldr_max_ge {α : Type} (v : α → Nat) :
    ∀ (l : List α) (x : α), x ∈ l → v x ≤ l.foldr (fun t acc => Nat.max (v t) acc) 0 := by
  intro l
  induction l with
  | nil => intro x hx; simp at hx
  | cons a as ih =>
    intro x hx
    rcases List.mem_cons.mp hx with rfl | hx'
    · exact Nat.le_max_left _ _
    · exact le_trans (ih x hx') (Nat.le_max_right _ _)

theorem foldr_nat_max_ge : ∀ (l : List Nat) (x : Nat), x ∈ l → x ≤ l.foldr Nat.max 0 := by
  intro l
  induction l with
  | nil => intro x hx; simp at hx
  | cons a as ih =>
    intro x hx
    rcases List.mem_cons.mp hx with rfl | hx'
    · exact Nat.le_max_left _ _
    · exact le_trans (ih x hx') (Nat.le_max_right _ _)

theorem length_le_longestFrom {f : Nat → List Nat} :
    ∀ (fuel n : Nat) (ps : List (Nat × Nat)), validPath f n ps = true →
      ps.length ≤ fuel → ps.length ≤ longestFrom f fuel n := by
  intro fuel
  induction fuel with
  | zero => intro n ps _ hlen; omega
  | succ fuel ih =>
    intro n ps hv hlen
    cases ps with
    | nil => simp
    | cons p tl =>
      obtain ⟨hget, hvtl⟩ := validPath_cons.mp hv
      have hmem : p.2 ∈ f n := getElem?_mem_of_some p.1 hget
      have htl : tl.length ≤ longestFrom f fuel p.2 := by
        apply ih p.2 tl hvtl
        simp only [List.length_cons] at hlen
        omega
      have hin : 1 + longestFrom f fuel p.2 ≤
          (f n).foldr (fun t acc => Nat.max (1 + longestFrom f fuel t) acc) 0 :=
        foldr_max_ge (fun t => 1 + longestFrom f fuel t) (f n) p.2 hmem
      simp only [longestFrom, List.length_cons]
      omega

/-- `maxPathLen` bounds the length of every path of length ≤ `fuel` out of
every node below `N`. -/
theorem length_le_maxPathLen {f : Nat → List Nat} {fuel N n : Nat} (hn : n < N)
    {ps : List (Nat × Nat)} (hv : validPath f n ps = true) (hlen : ps.length ≤ fuel) :
    ps.length ≤ maxPathLen f fuel N := by
  unfold maxPathLen
  refine le_trans (length_le_longestFrom fuel n ps hv hlen) (foldr_nat_max_ge _ _ ?_)
  exact List.mem_map.mpr ⟨n, List.mem_range.mpr hn, rfl⟩

/-! ## Well-formedness bridges -/

theorem parameters_eq_nil {g : Graph} {n : Nat} (h : g.nodes.length ≤ n) :
    parameters g n = [] := by
  simp [parameters, List.getElem?_eq_none h]

theorem inEdgeSources_eq_nil {g : Graph} {n : Nat} (h : g.nodes.length ≤ n) :
    inEdgeSources g n = [] := by
  simp [inEdgeSources, parameters_eq_nil h, collectIn]

theorem outEdgeTargets_eq_nil {g : Graph} {n : Nat} (h : g.nodes.length ≤ n) :
    outEdgeTargets g n = [] := by
  simp [outEdgeTargets, parameters_eq_nil h, collectOut]

theorem wellFormed_boundedIn {g : Graph} (h : WellFormed g) :
    BoundedSteps (inEdgeSources g) g.nodes.length := by
  intro n m hm
  by_cases hn : n < g.nodes.length
  · exact (h n hn).1 m hm
  · rw [inEdgeSources_eq_nil (by omega)] at hm; simp at hm

theorem wellFormed_boundedOut {g : Graph} (h : WellFormed g) :
    BoundedSteps (outEdgeTargets g) g.nodes.length := by
  intro n m hm
  by_cases hn : n < g.nodes.length
  · exact (h n hn).2 m hm
  · rw [outEdgeTargets_eq_nil (by omega)] at hm; simp at hm

/-- A ranking that descends on all existing nodes descends everywhere
(non-existing nodes have no parameters, hence no steps). -/
theorem rankDescending_in_of_bounded (g : Graph) (rank : Nat → Nat)
    (h : ∀ n, n < g.nodes.length → ∀ m ∈ inEdgeSources g n, rank m < rank n) :
    RankDescending (inEdgeSources g) rank := by
  intro n m hm
  by_cases hn : n < g.nodes.length
  · exact h n hn m hm
  · rw [inEdgeSources_eq_nil (by omega)] at hm; simp at hm

theorem rankDescending_out_of_bounded (g : Graph) (rank : Nat → Nat)
    (h : ∀ n, n < g.nodes.length → ∀ m ∈ outEdgeTargets g n, rank m < rank n) :
    RankDescending (outEdgeTargets g) rank := by
  intro n m hm
  by_cases hn : n < g.nodes.length
  · exact h n hn m hm
  · rw [outEdgeTargets_eq_nil (by omega)] at hm; simp at hm

/-! ## Auxiliary lemmas for the claim theorems -/

theorem hasParamWithID_iff : ∀ (ps : List NodeParam) (i : String),
    HasParamWithID ps i = true ↔ i ∈ ps.map NodeParam.id := by
  intro ps i
  induction ps with
  | nil => simp [HasParamWithID]
  | cons q qs ih =>
    by_cases h : q.id = i
    · simp [HasParamWithID, h]
    · simp only [HasParamWithID, if_neg h, List.map_cons, List.mem_cons, ih]
      constructor
      · exact Or.inr
      · rintro (rfl | hmem)
        · exact absurd rfl h
        · exact hmem

theorem length_filterMap_eq_countP {α β : Type} (fn : α → Option β) :
    ∀ (l : List α), (l.filterMap fn).length = l.countP (fun a => (fn a).isSome) := by
  intro l
  induction l with
  | nil => rfl
  | cons a l ih =>
    cases h : fn a with
    | none => simp [List.filterMap_cons, h, List.countP_cons, ih]
    | some b => simp [List.filterMap_cons, h, List.countP_cons, ih]

theorem hashLookup_insert_cases :
    ∀ (h : List (Nat × Nat)) (k' v k : Nat),
      hashLookup (hashInsert h k' v) k = if k' = k then some v else hashLookup h k := by
  intro h
  induction h with
  | nil => intro k' v k; simp [hashInsert, hashLookup]
  | cons x t ih =>
    intro k' v k
    by_cases hx : x.1 = k'
    · simp only [hashInsert]
      rw [if_pos hx]
      by_cases hk : k' = k
      · simp [hashLookup, hk]
      · simp only [hashLookup, if_neg hk]
        rw [if_neg (by omega : ¬x.1 = k)]
    · simp only [hashInsert]
      rw [if_neg hx]
      by_cases hxk : x.1 = k
      · simp only [hashLookup, if_pos hxk]
        rw [if_neg (by omega : ¬k' = k)]
      · simp only [hashLookup, if_neg hxk, ih]

theorem buildPtrs_lookup_aux :
    ∀ (regs : List (Nat × Nat)) (h : List (Nat × Nat)) (k : Nat),
      hashLookup (List.foldl (fun acc p => hashInsert acc p.1 p.2) h regs) k =
        (((regs.reverse.find? (fun p => p.1 == k)).map Prod.snd).or (hashLookup h k)) := by
  intro regs
  induction regs with
  | nil => intro h k; rfl
  | cons r rest ih =>
    intro h k
    simp only [List.foldl_cons, List.reverse_cons, List.find?_append]
    rw [ih (hashInsert h r.1 r.2) k, hashLookup_insert_cases]
    cases hfind : rest.reverse.find? (fun p => p.1 == k) with
    | some q => simp
    | none =>
      by_cases hr : r.1 = k
      · have hb : (r.1 == k) = true := by simpa using hr
        simp [List.find?, hb, hr]
      · have hb : (r.1 == k) = false := by simpa using hr
        simp [List.find?, hb, hr]

/-- Interleave a list of directly connected nodes with the sub-listings
found by recursing into each: the pre-order shape of `GetDependencies`. -/
def preJoin : List Nat → List (List Nat) → List Nat
  | [], _ => []
  | _ :: _, [] => []
  | m :: ms, sub :: subs => m :: (sub ++ preJoin ms subs)

theorem seqDeps_preJoin {h : Nat → Option (List Nat)} :
    ∀ (ms : List Nat) (l : List Nat), seqDeps h ms = some l →
      ∃ subs, List.Forall₂ (fun m sub => h m = some sub) ms subs ∧ l = preJoin ms subs := by
  intro ms
  induction ms with
  | nil =>
    intro l hl
    simp only [seqDeps, Option.some.injEq] at hl
    exact ⟨[], List.Forall₂.nil, hl.symm⟩
  | cons m ms ih =>
    intro l hl
    obtain ⟨sub, rest, hsub, hrest, rfl⟩ := seqDeps_cons_eq_some.mp hl
    obtain ⟨subs, hf, rfl⟩ := ih rest hrest
    exact ⟨sub :: subs, List.Forall₂.cons hsub hf, rfl⟩

/-! ## Claim theorems -/

/-- Claim C2: for the chain A→B→C, `GetDependencies(C)` contains both A and
B; for the diamond A→B, A→C, B→D, C→D, `GetDependencies(D)` contains A
exactly twice (duplicates are not removed). -/
theorem getDependencies_chain_and_diamond :
    (∃ l, GetDependencies chainGraph 4 2 = some l ∧ 1 ∈ l ∧ 0 ∈ l) ∧
    (∃ l, GetDependencies diamondGraph 5 3 = some l ∧ l.count 0 = 2) :=
  ⟨⟨[1, 0], by decide, by decide, by decide⟩, ⟨[1, 0, 2, 0], by decide, by decide⟩⟩

/-- Claim C4: every recursive invalidation call made by
`InvalidateCache(node, start_range, end_range)` carries exactly the original
`start_range` and `end_range`, unchanged. -/
theorem invalidateCache_same_range (g : Graph) (fuel n : Nat) (s e : ℚ) (g' : Graph)
    (tr : List (Nat × ℚ × ℚ)) (h : InvalidateCache g fuel n s e = some (g', tr)) :
    ∀ x ∈ tr, x.2.1 = s ∧ x.2.2 = e := by
  rw [invalidateCache_eq_walk] at h
  cases hw : walk (outEdgeTargets g) fuel n with
  | none => rw [hw] at h; simp at h
  | some l =>
    rw [hw] at h
    simp only [Option.map_some', Option.some.injEq] at h
    injection h with h1 h2
    subst h2
    intro x hx
    obtain ⟨m, _, rfl⟩ := List.mem_map.mp hx
    exact ⟨rfl, rfl⟩

theorem invalidateCache_same_range_witness :
    InvalidateCache chainGraph 4 0 0 1 = some (chainGraph, [(1, 0, 1), (2, 0, 1)]) ∧
    ∀ x ∈ [((1 : Nat), (0 : ℚ), (1 : ℚ)), (2, 0, 1)], x.2.1 = 0 ∧ x.2.2 = 1 :=
  ⟨by decide, invalidateCache_same_range chainGraph 4 0 0 1 chainGraph
    [(1, 0, 1), (2, 0, 1)] (by decide)⟩

/-- Claim C5: invalidating a node whose output parameters have no attached
edges makes zero recursive invalidation calls: the trace is empty and the
recursion ends there. -/
theorem invalidateCache_leaf_zero_calls (g : Graph) (fuel n : Nat) (s e : ℚ)
    (h : outEdgeTargets g n = []) :
    InvalidateCache g (fuel + 1) n s e = some (g, []) := by
  simp [InvalidateCache, h, seqInvalidate]

theorem invalidateCache_leaf_zero_calls_witness :
    outEdgeTargets chainGraph 2 = [] ∧
    InvalidateCache chainGraph 1 2 0 0 = some (chainGraph, []) :=
  ⟨by decide, invalidateCache_leaf_zero_calls chainGraph 0 2 0 0 (by decide)⟩

/-- Claim C9: `InvalidateCache` mutates nothing: the graph state after the
call is exactly the graph state before it, so every node's parameter
collection (and hence every parameter's edge list) is unchanged; the
traversal only produces the trace of notification calls. -/
theorem invalidateCache_no_graph_mutation (g : Graph) (fuel n : Nat) (s e : ℚ)
    (g' : Graph) (tr : List (Nat × ℚ × ℚ))
    (h : InvalidateCache g fuel n s e = some (g', tr)) :
    g' = g ∧ ∀ k, parameters g' k = parameters g k := by
  rw [invalidateCache_eq_walk] at h
  cases hw : walk (outEdgeTargets g) fuel n with
  | none => rw [hw] at h; simp at h
  | some l =>
    rw [hw] at h
    simp only [Option.map_some', Option.some.injEq] at h
    injection h with h1 h2
    subst h1
    exact ⟨rfl, fun k => rfl⟩

theorem invalidateCache_no_graph_mutation_witness :
    InvalidateCache diamondGraph 5 0 0 1 =
      some (diamondGraph, [(1, 0, 1), (3, 0, 1), (2, 0, 1), (3, 0, 1)]) ∧
    diamondGraph = diamondGraph ∧
    ∀ k, parameters diamondGraph k = parameters diamondGraph k :=
  ⟨by decide, invalidateCache_no_graph_mutation diamondGraph 5 0 0 1 diamondGraph
    [(1, 0, 1), (3, 0, 1), (2, 0, 1), (3, 0, 1)] (by decide)⟩

/-- Claim C6: adding a parameter whose id already exists on the node is
caught by the asserted precondition (`AddParameter` fails instead of adding);
`HasParamWithID` decides exactly whether some existing parameter has the id;
and a successful `AddParameter` appends the parameter and preserves
uniqueness of parameter ids within the node. -/
theorem addParameter_duplicate_id_rejected (ps : List NodeParam) (p : NodeParam) :
    (AddParameter ps p = none ↔ HasParamWithID ps p.id = true) ∧
    (HasParamWithID ps p.id = true ↔ p.id ∈ ps.map NodeParam.id) ∧
    (∀ ps', AddParameter ps p = some ps' →
      ps' = ps ++ [p] ∧ ((ps.map NodeParam.id).Nodup → (ps'.map NodeParam.id).Nodup)) := by
  refine ⟨?_, hasParamWithID_iff ps p.id, ?_⟩
  · by_cases h : HasParamWithID ps p.id = true
    · simp [AddParameter, h]
    · simp [AddParameter, h]
  · intro ps' hps'
    by_cases h : HasParamWithID ps p.id = true
    · simp [AddParameter, h] at hps'
    · simp only [AddParameter, h, Bool.false_eq_true, if_false, if_neg,
        Option.some.injEq] at hps'
      subst hps'
      refine ⟨rfl, fun hnd => ?_⟩
      have hid : p.id ∉ ps.map NodeParam.id := fun hmem =>
        h ((hasParamWithID_iff ps p.id).mpr hmem)
      rw [List.map_append]
      simp only [List.map_cons, List.map_nil]
      rw [List.nodup_middle]
      exact List.nodup_cons.mpr ⟨by simpa using hid, by simpa using hnd⟩

theorem addParameter_duplicate_id_rejected_witness :
    AddParameter [⟨"a", ParamType.kInput, []⟩] ⟨"a", ParamType.kOutput, []⟩ = none ∧
    (([⟨"a", ParamType.kInput, []⟩, ⟨"b", ParamType.kOutput, []⟩] : List NodeParam).map
      NodeParam.id).Nodup :=
  ⟨(addParameter_duplicate_id_rejected [⟨"a", ParamType.kInput, []⟩]
      ⟨"a", ParamType.kOutput, []⟩).1.mpr (by decide),
   ((addParameter_duplicate_id_rejected [⟨"a", ParamType.kInput, []⟩]
      ⟨"b", ParamType.kOutput, []⟩).2.2
      [⟨"a", ParamType.kInput, []⟩, ⟨"b", ParamType.kOutput, []⟩] (by decide)).2 (by decide)⟩

/-- Claim C7: `XMLConnectNodes` creates one edge per descriptor whose source
token resolves in `node_ptrs`; a descriptor whose token is absent is silently
skipped — no edge, no error — without affecting the other connections of the
batch. -/
theorem xmlConnectNodes_tolerates_missing_source (d : XMLNodeData) :
    (∀ c ∈ d.desired_connections, ∀ src, hashLookup d.node_ptrs c.output_node = some src →
      (src, c.output, c.input) ∈ XMLConnectNodes d) ∧
    (XMLConnectNodes d).length =
      d.desired_connections.countP (fun c => (hashLookup d.node_ptrs c.output_node).isSome) ∧
    (∀ (ptrs : List (Nat × Nat)) (pre post : List SerializedConnection)
        (c : SerializedConnection) (bl ip : List (Nat × Nat)),
      hashLookup ptrs c.output_node = none →
      XMLConnectNodes ⟨ptrs, pre ++ c :: post, bl, ip⟩ =
        XMLConnectNodes ⟨ptrs, pre ++ post, bl, ip⟩) := by
  refine ⟨?_, ?_, ?_⟩
  · intro c hc src hsrc
    exact List.mem_filterMap.mpr ⟨c, hc, by simp [hsrc]⟩
  · unfold XMLConnectNodes
    rw [length_filterMap_eq_countP]
    apply List.countP_congr
    intro c _
    cases hashLookup d.node_ptrs c.output_node <;> simp
  · intro ptrs pre post c bl ip hnone
    simp only [XMLConnectNodes, List.filterMap_append, List.filterMap_cons, hnone,
      Option.map_none']

def demoPtrs : List (Nat × Nat) := buildPtrs [(1, 10), (2, 20)]

def demoData : XMLNodeData :=
  ⟨demoPtrs, [⟨100, 1, "outA"⟩, ⟨101, 3, "outB"⟩, ⟨102, 2, "outC"⟩], [], []⟩

theorem xmlConnectNodes_tolerates_missing_source_witness :
    (⟨100, 1, "outA"⟩ : SerializedConnection) ∈ demoData.desired_connections ∧
    hashLookup demoData.node_ptrs 1 = some 10 ∧
    ((10 : Nat), ("outA" : String), (100 : Nat)) ∈ XMLConnectNodes demoData ∧
    hashLookup demoPtrs 3 = none ∧
    XMLConnectNodes ⟨demoPtrs,
        [⟨100, 1, "outA"⟩] ++ (⟨101, 3, "outB"⟩ : SerializedConnection) ::
          [⟨102, 2, "outC"⟩], [], []⟩ =
      XMLConnectNodes ⟨demoPtrs, [⟨100, 1, "outA"⟩] ++ [⟨102, 2, "outC"⟩], [], []⟩ :=
  ⟨by decide, by decide,
   (xmlConnectNodes_tolerates_missing_source demoData).1 ⟨100, 1, "outA"⟩ (by decide) 10
     (by decide),
   by decide,
   (xmlConnectNodes_tolerates_missing_source demoData).2.2 demoPtrs [⟨100, 1, "outA"⟩]
     [⟨102, 2, "outC"⟩] ⟨101, 3, "outB"⟩ [] [] (by decide)⟩

/-- Claim C8: `node_ptrs` resolves token collisions last-registration-wins:
a lookup after any registration sequence returns precisely the most recently
registered node for that token; in particular registering two nodes under the
same token makes every subsequent lookup return the second one. -/
theorem nodePtrs_last_registration_wins :
    (∀ (regs : List (Nat × Nat)) (k : Nat),
      hashLookup (buildPtrs regs) k =
        (regs.reverse.find? (fun p => p.1 == k)).map Prod.snd) ∧
    (∀ (h : List (Nat × Nat)) (k v : Nat), hashLookup (hashInsert h k v) k = some v) ∧
    (∀ (k v₁ v₂ : Nat), hashLookup (buildPtrs [(k, v₁), (k, v₂)]) k = some v₂) := by
  refine ⟨?_, ?_, ?_⟩
  · intro regs k
    have haux := buildPtrs_lookup_aux regs [] k
    rw [buildPtrs]
    rw [haux]
    cases hf : regs.reverse.find? (fun p => p.1 == k) with
    | none => simp [hashLookup]
    | some q => simp
  · intro h k v
    rw [hashLookup_insert_cases]
    simp
  · intro k v₁ v₂
    show hashLookup (hashInsert (hashInsert [] k v₁) k v₂) k = some v₂
    rw [hashLookup_insert_cases]
    simp

/-- Claim C10: `GetDependencies` lists dependencies in pre-order: each
directly connected upstream node comes immediately before the nodes found by
recursing into it; concretely, for the chain A→B→C, `GetDependencies(C)`
returns exactly [B, A]. -/
theorem getDependencies_preorder :
    (∀ (g : Graph) (fuel n : Nat) (l : List Nat), GetDependencies g (fuel + 1) n = some l →
      ∃ subs, List.Forall₂ (fun m sub => GetDependenciesInternal g fuel m = some sub)
          (inEdgeSources g n) subs ∧
        l = preJoin (inEdgeSources g n) subs) ∧
    GetDependencies chainGraph 4 2 = some [1, 0] := by
  constructor
  · intro g fuel n l h
    simp only [GetDependencies, GetDependenciesInternal] at h
    exact seqDeps_preJoin _ _ h
  · decide

theorem getDependencies_preorder_witness :
    GetDependencies chainGraph 4 2 = some [1, 0] ∧
    ∃ subs, List.Forall₂ (fun m sub => GetDependenciesInternal chainGraph 3 m = some sub)
        (inEdgeSources chainGraph 2) subs ∧
      [1, 0] = preJoin (inEdgeSources chainGraph 2) subs :=
  ⟨by decide, getDependencies_preorder.1 chainGraph 3 2 [1, 0] (by decide)⟩

theorem count_map_pair (l : List Nat) (m : Nat) (s e : ℚ) :
    (l.map (fun x => (x, s, e))).count (m, s, e) = l.count m := by
  induction l with
  | nil => rfl
  | cons a l ih =>
    simp only [List.map_cons, List.count_cons, ih, beq_iff_eq]
    by_cases h : a = m <;> simp [h, Prod.mk.injEq]

/-- Claim C1: on every well-formed acyclic graph, `InvalidateCache(N, s, e)`
completes, invalidates every node reachable through forward output→input
edges at least once, and — with no deduplication — issues exactly one
invalidation call per distinct forward path: the number of calls a node `m`
receives equals the number of entries ending at `m` in the duplicate-free
list of all forward paths out of `N`. -/
theorem invalidateCache_visits_once_per_path (g : Graph) (n : Nat) (s e : ℚ)
    (hwf : WellFormed g) (hac : Acyclic (outEdgeTargets g)) :
    ∃ tr, InvalidateCache g (g.nodes.length + 1) n s e = some (g, tr) ∧
      (∀ m ps, ps ≠ [] → validPath (outEdgeTargets g) n ps = true →
        pathEnd n ps = m → (m, s, e) ∈ tr) ∧
      (∀ m, tr.count (m, s, e) =
        ((pathsUpTo (outEdgeTargets g) (g.nodes.length + 1) n).filter
          (fun ps => endsAt ps m)).length) ∧
      (pathsUpTo (outEdgeTargets g) (g.nodes.length + 1) n).Nodup ∧
      (∀ ps, ps ∈ pathsUpTo (outEdgeTargets g) (g.nodes.length + 1) n ↔
        ps ≠ [] ∧ validPath (outEdgeTargets g) n ps = true) := by
  have hb : BoundedSteps (outEdgeTargets g) g.nodes.length := wellFormed_boundedOut hwf
  obtain ⟨l, hl⟩ := Option.isSome_iff_exists.mp (acyclic_walk_isSome hb hac n)
  refine ⟨l.map (fun m => (m, s, e)), ?_, ?_, ?_,
    pathsUpTo_nodup (outEdgeTargets g) (g.nodes.length + 1) n, ?_⟩
  · rw [invalidateCache_eq_walk, hl]
    rfl
  · intro m ps hne hv hend
    subst hend
    have hlen : ps.length ≤ g.nodes.length := path_length_le_of_acyclic hb hac hv
    have hmem : ps ∈ pathsUpTo (outEdgeTargets g) (g.nodes.length + 1) n :=
      (mem_pathsUpTo (g.nodes.length + 1) n ps).mpr ⟨hne, by omega, hv⟩
    have hendsAt : endsAt ps (pathEnd n ps) = true := endsAt_of_pathEnd hne n
    have hcnt := walk_count (g.nodes.length + 1) n l hl (pathEnd n ps)
    have hpos : 0 < (pathsUpTo (outEdgeTargets g) (g.nodes.length + 1) n).countP
        (fun qs => endsAt qs (pathEnd n ps)) := by
      rw [List.countP_eq_length_filter]
      exact List.length_pos.mpr (List.ne_nil_of_mem (List.mem_filter.mpr ⟨hmem, hendsAt⟩))
    have hml : pathEnd n ps ∈ l := List.count_pos_iff.mp (by rw [hcnt]; exact hpos)
    exact List.mem_map.mpr ⟨pathEnd n ps, hml, rfl⟩
  · intro m
    have hcnt := walk_count (g.nodes.length + 1) n l hl m
    rw [← List.countP_eq_length_filter, ← hcnt]
    exact count_map_pair l m s e
  · intro ps
    rw [mem_pathsUpTo]
    constructor
    · rintro ⟨hne, _, hv⟩
      exact ⟨hne, hv⟩
    · rintro ⟨hne, hv⟩
      have := path_length_le_of_acyclic hb hac hv
      exact ⟨hne, by omega, hv⟩

theorem invalidateCache_visits_once_per_path_witness :
    WellFormed diamondGraph ∧ Acyclic (outEdgeTargets diamondGraph) ∧
    (∃ tr, InvalidateCache diamondGraph (diamondGraph.nodes.length + 1) 0 0 1 =
        some (diamondGraph, tr) ∧
      (∀ m ps, ps ≠ [] → validPath (outEdgeTargets diamondGraph) 0 ps = true →
        pathEnd 0 ps = m → (m, 0, 1) ∈ tr) ∧
      (∀ m, tr.count (m, 0, 1) =
        ((pathsUpTo (outEdgeTargets diamondGraph) (diamondGraph.nodes.length + 1) 0).filter
          (fun ps => endsAt ps m)).length) ∧
      (pathsUpTo (outEdgeTargets diamondGraph) (diamondGraph.nodes.length + 1) 0).Nodup ∧
      (∀ ps, ps ∈ pathsUpTo (outEdgeTargets diamondGraph) (diamondGraph.nodes.length + 1) 0 ↔
        ps ≠ [] ∧ validPath (outEdgeTargets diamondGraph) 0 ps = true)) := by
  have hwf : WellFormed diamondGraph := by decide
  have hac : Acyclic (outEdgeTargets diamondGraph) :=
    acyclic_of_rank (rankDescending_out_of_bounded diamondGraph (fun k => 4 - k) (by decide))
  exact ⟨hwf, hac, invalidateCache_visits_once_per_path diamondGraph 0 0 1 hwf hac⟩

/-- Claim C3 (amended): on every well-formed acyclic graph `GetDependencies`
terminates, and the returned sequence is finite, with exactly one entry per
distinct backward dependency path out of the queried node.  (The originally
claimed bound — edges × longest path — is refuted by
`getDependencies_bound_counterexample`.) -/
theorem getDependencies_terminates_for_acyclic (g : Graph) (n : Nat)
    (hwf : WellFormed g) (hac : Acyclic (inEdgeSources g)) :
    ∃ l, GetDependencies g (g.nodes.length + 1) n = some l ∧
      l.length = (pathsUpTo (inEdgeSources g) (g.nodes.length + 1) n).length ∧
      (∀ ps, ps ∈ pathsUpTo (inEdgeSources g) (g.nodes.length + 1) n ↔
        ps ≠ [] ∧ validPath (inEdgeSources g) n ps = true) := by
  have hb : BoundedSteps (inEdgeSources g) g.nodes.length := wellFormed_boundedIn hwf
  obtain ⟨l, hl⟩ := Option.isSome_iff_exists.mp (acyclic_walk_isSome hb hac n)
  refine ⟨l, ?_, walk_length _ _ l hl, ?_⟩
  · show GetDependenciesInternal g (g.nodes.length + 1) n = some l
    rw [getDependenciesInternal_eq_walk]
    exact hl
  · intro ps
    rw [mem_pathsUpTo]
    constructor
    · rintro ⟨hne, _, hv⟩
      exact ⟨hne, hv⟩
    · rintro ⟨hne, hv⟩
      have := path_length_le_of_acyclic hb hac hv
      exact ⟨hne, by omega, hv⟩

theorem getDependencies_terminates_for_acyclic_witness :
    WellFormed diamondGraph ∧ Acyclic (inEdgeSources diamondGraph) ∧
    (∃ l, GetDependencies diamondGraph (diamondGraph.nodes.length + 1) 3 = some l ∧
      l.length =
        (pathsUpTo (inEdgeSources diamondGraph) (diamondGraph.nodes.length + 1) 3).length ∧
      (∀ ps, ps ∈ pathsUpTo (inEdgeSources diamondGraph) (diamondGraph.nodes.length + 1) 3 ↔
        ps ≠ [] ∧ validPath (inEdgeSources diamondGraph) 3 ps = true)) := by
  have hwf : WellFormed diamondGraph := by decide
  have hac : Acyclic (inEdgeSources diamondGraph) :=
    acyclic_of_rank (rankDescending_in_of_bounded diamondGraph (fun k => k) (by decide))
  exact ⟨hwf, hac, getDependencies_terminates_for_acyclic diamondGraph 3 hwf hac⟩

/-- The ladder of 7 diamonds is acyclic (witnessed by the chain-distance
ranking), so it is a graph the edge-creation collaborator accepts. -/
theorem ladder7_acyclic : Acyclic (inEdgeSources ladder7) :=
  acyclic_of_rank (rankDescending_in_of_bounded ladder7 ladderLevel (by decide))

/-- Every backward path in the ladder of 7 diamonds has length at most 14:
14 really is the longest path length of that graph. -/
theorem ladder7_path_length_le (n : Nat) (ps : List (Nat × Nat))
    (hv : validPath (inEdgeSources ladder7) n ps = true) : ps.length ≤ 14 := by
  have hrd : RankDescending (inEdgeSources ladder7) ladderLevel :=
    rankDescending_in_of_bounded ladder7 ladderLevel (by decide)
  have h1 := rank_length_le hrd ps n hv
  have h2 : ladderLevel n ≤ 14 := by
    by_cases hn : n < 22
    · interval_cases n <;> decide
    · unfold ladderLevel
      rw [List.getD_eq_default _ _ (by simp; omega)]
      omega
  omega

set_option maxRecDepth 40000 in
/-- Claim C3, counterexample to the claimed bound: for the (acyclic,
well-formed) ladder of 7 diamonds, `GetDependencies` of the final sink
returns 508 entries, while the graph has 28 edges and a longest path of 14
edges (15 nodes), and 28 · (14 + 1) = 420 < 508 — so the length of the
returned sequence is *not* bounded by edges × longest path. -/
theorem getDependencies_bound_counterexample :
    (GetDependencies ladder7 23 21).map List.length = some 508 ∧
    numEdges ladder7 = 28 ∧
    WellFormed ladder7 ∧
    maxPathLen (inEdgeSources ladder7) 23 22 = 14 ∧
    numEdges ladder7 * (maxPathLen (inEdgeSources ladder7) 23 22 + 1) < 508 := by
  refine ⟨by decide, by decide, by decide, by decide, by decide⟩
